import Mathlib

/-!
Verification of the core of the `ouro` repository: the persistent FAISS-backed
vector index (`src/utils.py`, class `FAISSStore`), the text chunker and
knowledge-extraction crawler (`src/utils.py`, classes `WebScraper` and
`KnowledgeExtractor`), and the topic guard in `src/brain.py`
(`Brain.visit_and_update_memory`).

Modelling conventions:
* Python strings are `List Char`; Python's `str.split(sep)`, `str.split()`,
  `str.strip()` and `' '.join` are translated below as structurally recursive
  functions with the same semantics.
* Vectors are `List ℚ`.  The source stores `float32` vectors; every claim
  settled here depends only on the ordered-field facts that hold for the
  exact same sequence of arithmetic operations, so exact rationals stand in
  for floats.
* The FAISS binary blob (`faiss.write_index` / `faiss.read_index`) is an
  external library that the spec requires to reload vectors bit-exactly; it
  is modelled as the identity on the stored vector list.  The `.texts`
  sidecar file is modelled exactly as written/parsed by `_try_save_texts`
  and `_try_load_texts`.
* The web fetch, link extraction raw results, and the URL domain/extension
  predicates are external effects; they appear as oracle functions in
  `CrawlEnv`.  The crawler's own control flow (frontier, visited set,
  budgets, filters) is translated from the source.
-/

/-- Whitespace test matching Python's `str.split()` / `str.strip()` default
separators for the characters that occur in this code base. -/
def isSpace (c : Char) : Bool :=
  c = ' ' || c = '\n' || c = '\t' || c = '\r'

/-- `containsSub pat s = true` iff `pat` occurs as a contiguous substring of
`s` (Python's `pat in s`). -/
def containsSub (pat : List Char) : List Char → Bool
  | [] => pat.isEmpty
  | c :: cs => pat.isPrefixOf (c :: cs) || containsSub pat cs

/-- The text of the separator line used by `FAISSStore._try_save_texts`. -/
def SEPC : List Char := "===TEXT_SEPARATOR===".toList

/-- The full delimiter written between payloads:
`"\n===TEXT_SEPARATOR===\n"` (`src/utils.py:129`). -/
def DELIM : List Char := '\n' :: (SEPC ++ ['\n'])

/-- Fuelled worker for Python's `str.split(sep)` (leftmost, non-overlapping
matches).  `cur` holds the reversed characters of the piece being built.
One unit of fuel is spent per step and every step consumes at least one
character of `rest`, so with `fuel = rest.length` the fallback first
equation is never reached. -/
def splitGo (sep : List Char) : Nat → List Char → List Char → List (List Char)
  | 0, cur, rest => [cur.reverse ++ rest]
  | _ + 1, cur, [] => [cur.reverse]
  | f + 1, cur, c :: cs =>
    if sep.isPrefixOf (c :: cs) then
      cur.reverse :: splitGo sep f [] (List.drop sep.length (c :: cs))
    else
      splitGo sep f (c :: cur) cs

/-- Python's `content.split(sep)` for a non-empty separator
(`src/utils.py:140`). -/
def pySplitOn (sep s : List Char) : List (List Char) :=
  if sep.isEmpty then [s] else splitGo sep s.length [] s

/-- In-memory state of a `FAISSStore`: the vectors held by the flat L2 index
(`index.ntotal` equals `vectors.length`) and the parallel `texts` list. -/
structure IndexState where
  vectors : List (List ℚ)
  texts : List (List Char)
deriving DecidableEq

/-- The file content written by the loop of `_try_save_texts`
(`src/utils.py:127-129`): each payload followed by the delimiter. -/
def encodeTexts (ts : List (List Char)) : List Char :=
  List.flatten (ts.map (fun t => t ++ DELIM))

/-- `FAISSStore._try_save_texts` (`src/utils.py:120-131`): nothing is written
when `texts` is empty; otherwise each payload is written followed by the
delimiter line.  The result is the content of the `.texts` sidecar file
(`none` = no file written). -/
def saveTexts (ts : List (List Char)) : Option (List Char) :=
  if ts.isEmpty then none else some (encodeTexts ts)

/-- `FAISSStore._try_load_texts` (`src/utils.py:133-147`): split the file on
the delimiter and pop a trailing empty entry. A missing file leaves `texts`
empty. -/
def loadTexts (file : Option (List Char)) : List (List Char) :=
  match file with
  | none => []
  | some content =>
    let parts := pySplitOn DELIM content
    if parts ≠ [] ∧ parts.getLast? = some [] then parts.dropLast else parts

/-- `FAISSStore.save_index` (`src/utils.py:109-118`): the on-disk artifacts, as
a pair (vector blob contents, optional `.texts` file contents). -/
def saveIndex (s : IndexState) : List (List ℚ) × Option (List Char) :=
  (s.vectors, saveTexts s.texts)

/-- Re-opening a `FAISSStore` from the two artifacts (`src/utils.py:89-101`):
`faiss.read_index` restores the vectors and `_try_load_texts` parses the
sidecar. -/
def loadIndex (disk : List (List ℚ) × Option (List Char)) : IndexState :=
  { vectors := disk.1, texts := loadTexts disk.2 }

/-- `FAISSStore.add_embeddings` (`src/utils.py:149-180`): the vectors are
always appended to the index; texts are appended only when the argument is
truthy (`if texts:`), with no length check.  The returned `Bool` is the
function's Python return value (`True` on the non-exception path). -/
def addEmbeddings (s : IndexState) (embs : List (List ℚ))
    (txts : Option (List (List Char))) : IndexState × Bool :=
  ({ vectors := s.vectors ++ embs
   , texts :=
      match txts with
      | none => s.texts
      | some ts => if ts.isEmpty then s.texts else s.texts ++ ts }, true)

/-- `np.sum((vec - uvec)**2)` (`src/utils.py:241`): squared L2 distance. -/
def sqDist (v u : List ℚ) : ℚ :=
  ((v.zip u).map (fun p => (p.1 - p.2) * (p.1 - p.2))).sum

/-- The inner loop of `remove_duplicates` (`src/utils.py:240-244`): is `v`
within `t` of some already-kept vector? -/
def isDup (t : ℚ) (kept : List (List ℚ)) (v : List ℚ) : Bool :=
  kept.any (fun u => decide (sqDist v u < t))

/-- The `for i, vec in enumerate(vectors)` pass of `remove_duplicates`
(`src/utils.py:238-247`), carrying `unique_vectors`, `unique_indices` and the
running index `i`. -/
def dedupAux (t : ℚ) : List (List ℚ) → List (List ℚ) → List Nat → Nat →
    List (List ℚ) × List Nat
  | [], kept, keptIdx, _ => (kept, keptIdx)
  | v :: vs, kept, keptIdx, i =>
    if isDup t kept v then dedupAux t vs kept keptIdx (i + 1)
    else dedupAux t vs (kept ++ [v]) (keptIdx ++ [i]) (i + 1)

/-- `FAISSStore.remove_duplicates` (`src/utils.py:212-266`): no-op below two
vectors; otherwise a greedy order-preserving pass, with `texts` rebuilt from
`unique_indices` only when it was non-empty and matched the old index size. -/
def removeDuplicates (t : ℚ) (s : IndexState) : IndexState :=
  if s.vectors.length < 2 then s
  else
    let r := dedupAux t s.vectors [] [] 0
    { vectors := r.1
    , texts :=
        if ¬s.texts.isEmpty ∧ s.texts.length = s.vectors.length then
          r.2.map (fun i => s.texts.getD i [])
        else s.texts }

/-- Worker for Python's whitespace `str.split()`; `cur` is the reversed
current word. -/
def pyWordsAux (cur : List Char) : List Char → List (List Char)
  | [] => if cur.isEmpty then [] else [cur.reverse]
  | c :: cs =>
    if isSpace c then
      if cur.isEmpty then pyWordsAux [] cs else cur.reverse :: pyWordsAux [] cs
    else pyWordsAux (c :: cur) cs

/-- Python's `text.split()` (`src/utils.py:678`): split on whitespace runs,
dropping empty pieces. -/
def pyWords (s : List Char) : List (List Char) := pyWordsAux [] s

/-- Number of iterations of Python's `range(0, n, step)` for `step > 0`. -/
def strideCount (n step : Nat) : Nat := (n + step - 1) / step

/-- Python's `range(0, n, step)` (`src/utils.py:684`). -/
def chunkStarts (n step : Nat) : List Nat :=
  List.range' 0 (strideCount n step) step

/-- The word window `words[i:i + cs]`. -/
def spanAt (ws : List (List Char)) (cs i : Nat) : List (List Char) :=
  (ws.drop i).take cs

/-- All word windows produced by the chunking loop. -/
def chunkSpans (ws : List (List Char)) (cs step : Nat) : List (List (List Char)) :=
  (chunkStarts ws.length step).map (spanAt ws cs)

/-- `' '.join(words)` (`src/utils.py:685`). -/
def joinWords (ws : List (List Char)) : List Char := List.intercalate [' '] ws

/-- `KnowledgeExtractor._chunk_text` (`src/utils.py:666-688`): a single chunk
holding the whole original text if it has at most `cs` words, else the join
of each window of `cs` words at stride `cs - ov`. -/
def chunkText (text : List Char) (cs ov : Nat) : List (List Char) :=
  let ws := pyWords text
  if ws.length ≤ cs then [text]
  else (chunkSpans ws cs (cs - ov)).map joinWords

/-- `WebScraper.scrape_text` (`src/utils.py:394-420`) as a state-passing
function on the visited set: an already-visited URL returns `""` and leaves
the state alone; otherwise the URL is marked visited first and the fetched
text (empty on fetch failure, which the source converts to `""` via the
`except` branches) is returned. -/
def scrapeText {α : Type} [DecidableEq α] (fetch : α → List Char)
    (visited : List α) (url : α) : List Char × List α :=
  if url ∈ visited then ([], visited)
  else (fetch url, url :: visited)

/-- `WebScraper.extract_links` (`src/utils.py:494-574`): the raw links found
on the page (oracle `raw`), filtered to drop already-visited URLs and those
failing the domain/extension predicates (oracle `ok`, abstracting the
`urlparse` netloc comparison and the extension check on URL strings), capped
at `maxLinks` by the `break`. -/
def extractLinks {α : Type} [DecidableEq α] (raw : α → List α)
    (ok : α → α → Bool) (visited : List α) (url : α) (maxLinks : Nat) :
    List α :=
  (((raw url).filter (fun l => decide (l ∉ visited) && ok url l)).take maxLinks)

/-- External behaviour a crawl runs against: page fetch results, raw
extracted links, and the domain/extension filter predicate. -/
structure CrawlEnv (α : Type) where
  fetch : α → List Char
  rawLinks : α → List α
  linkOk : α → α → Bool

/-- State of one `extract_knowledge_from_topic` crawl
(`src/utils.py:621-654`), instrumented with the trace of dequeued frontier
entries, processed pages, and enqueue events (each enqueued link paired with
a snapshot of the visited set at enqueue time). -/
structure CrawlState (α : Type) where
  frontier : List (α × Nat)
  visited : List α
  processed : Nat
  dequeued : List (α × Nat)
  processedPages : List (α × Nat)
  enqueueTrace : List (α × List α)
deriving DecidableEq

/-- One iteration of the `while urls_to_visit and processed_count < max_pages`
body (`src/utils.py:625-658`).  A non-empty page text always yields a
non-empty chunk list (`_chunk_text` returns `[text]` when the word count is
small), so `processed_count` is incremented exactly when the scraped text is
non-empty; the embedding and FAISS insertion affect only the store, not the
crawl state, and the periodic `save_index` calls are disk-only effects. -/
def crawlStep {α : Type} [DecidableEq α] (env : CrawlEnv α) (maxDepth : Nat)
    (s : CrawlState α) : CrawlState α :=
  match s.frontier with
  | [] => s
  | (url, depth) :: rest =>
    let sDeq : CrawlState α :=
      { s with frontier := rest, dequeued := s.dequeued ++ [(url, depth)] }
    if maxDepth < depth then sDeq
    else
      let scr := scrapeText env.fetch s.visited url
      let sVis : CrawlState α := { sDeq with visited := scr.2 }
      if scr.1 = [] then sVis
      else
        let sProc : CrawlState α :=
          { sVis with
            processed := sVis.processed + 1
            , processedPages := sVis.processedPages ++ [(url, depth)] }
        if depth < maxDepth then
          let links := extractLinks env.rawLinks env.linkOk sProc.visited url 10
          { sProc with
            frontier := sProc.frontier ++ links.map (fun l => (l, depth + 1))
            , enqueueTrace :=
                sProc.enqueueTrace ++ links.map (fun l => (l, sProc.visited)) }
        else sProc

/-- The crawl loop, fuelled.  Every claim proved about it holds for all fuel
values, hence for the terminating run the source performs. -/
def crawlLoop {α : Type} [DecidableEq α] (env : CrawlEnv α)
    (maxDepth maxPages : Nat) : Nat → CrawlState α → CrawlState α
  | 0, s => s
  | f + 1, s =>
    if s.frontier = [] ∨ maxPages ≤ s.processed then s
    else crawlLoop env maxDepth maxPages f (crawlStep env maxDepth s)

/-- Crawl state at entry of `extract_knowledge_from_topic`
(`src/utils.py:622-623`) on a fresh `KnowledgeExtractor` (whose `WebScraper`
starts with an empty visited set). -/
def initCrawl {α : Type} (start : α) : CrawlState α :=
  { frontier := [(start, 0)], visited := [], processed := 0
  , dequeued := [], processedPages := [], enqueueTrace := [] }

/-- The scheme prefix checked by `topic.startswith("http://")`. -/
def httpPrefix : List Char := "http://".toList

/-- The scheme prefix checked by `topic.startswith("https://")`. -/
def httpsPrefix : List Char := "https://".toList

/-- The search-engine base URL of `src/utils.py:615`. -/
def searchBase : List Char := "https://www.google.com/search?q=".toList

/-- The search URL built for a non-URL topic (`src/utils.py:615`):
`"https://www.google.com/search?q=" + topic.replace(' ', '+')`. -/
def googleSearchUrl (topic : List Char) : List Char :=
  searchBase ++ topic.map (fun c => if c = ' ' then '+' else c)

/-- Seed URL resolution (`src/utils.py:614-619`). -/
def seedUrl (topic : List Char) : List Char :=
  if httpPrefix.isPrefixOf topic || httpsPrefix.isPrefixOf topic
  then topic else googleSearchUrl topic

/-- `KnowledgeExtractor.extract_knowledge_from_topic`
(`src/utils.py:599-664`) run for `fuel` loop iterations; its Python return
value is the `processed` field of the result. -/
def extractKnowledgeFromTopic (env : CrawlEnv (List Char))
    (maxDepth maxPages fuel : Nat) (topic : List Char) : CrawlState (List Char) :=
  crawlLoop env maxDepth maxPages fuel (initCrawl (seedUrl topic))

/-- Python's `str.strip()` with no argument. -/
def pyStrip (s : List Char) : List Char :=
  ((s.dropWhile isSpace).reverse.dropWhile isSpace).reverse

/-- The guard of `Brain.visit_and_update_memory` (`src/brain.py:147-150`):
`if not topic or not topic.strip(): return False`, modelled for a fresh
`Brain` (empty `explored_topics`).  The second component is `none` when no
crawl is started, else the page count of the crawl that is run. -/
def visitAndUpdateMemory (env : CrawlEnv (List Char))
    (maxDepth maxPages fuel : Nat) (topic : List Char) : Bool × Option Nat :=
  if topic.isEmpty || (pyStrip topic).isEmpty then (false, none)
  else
    let n := (extractKnowledgeFromTopic env maxDepth maxPages fuel topic).processed
    (if n = 0 then false else true, some n)

/-! ### Helper lemmas: the `.texts` sidecar round trip -/

lemma DELIM_cons : DELIM = '\n' :: (SEPC ++ ['\n']) := rfl

lemma containsSub_parts (pat a b : List Char) (hp : pat ≠ []) :
    containsSub pat (a ++ pat ++ b) = true := by
  induction a with
  | nil =>
    obtain ⟨p, ps, rfl⟩ : ∃ p ps, pat = p :: ps := by
      cases pat with
      | nil => exact absurd rfl hp
      | cons p ps => exact ⟨p, ps, rfl⟩
    have hpre : (p :: ps).isPrefixOf ((p :: ps) ++ b) = true :=
      List.isPrefixOf_iff_prefix.mpr (List.prefix_append _ _)
    simp only [List.nil_append, List.cons_append] at hpre ⊢
    simp [containsSub, hpre]
  | cons x a ih =>
    have hsh : (x :: a) ++ pat ++ b = x :: (a ++ pat ++ b) := by simp
    rw [hsh]
    show (pat.isPrefixOf (x :: (a ++ pat ++ b)) || containsSub pat (a ++ pat ++ b)) = true
    rw [ih, Bool.or_true]

lemma delim_not_prefix (t r : List Char) (hfree : containsSub SEPC t = false)
    (hne : t ≠ []) : DELIM.isPrefixOf (t ++ DELIM ++ r) = false := by
  by_contra hcon
  rw [Bool.not_eq_false, List.isPrefixOf_iff_prefix] at hcon
  obtain ⟨z, hz⟩ := hcon
  have hk : 1 ≤ t.length := by
    cases t with
    | nil => exact absurd rfl hne
    | cons _ _ => simp
  by_cases h21 : t.length ≤ 20
  · -- the char at position `t.length` is the delimiter's leading newline on
    -- one side and a character of SEPC on the other
    obtain ⟨k, hk1⟩ : ∃ k, t.length = k + 1 := ⟨t.length - 1, by omega⟩
    have e1 : (t ++ DELIM ++ r)[t.length]? = some '\n' := by
      rw [List.append_assoc, List.getElem?_append_right (le_refl t.length)]
      simp [DELIM_cons]
    have h20 : SEPC.length = 20 := by decide
    have h22 : DELIM.length = 22 := by decide
    have e2 : (DELIM ++ z)[t.length]? = SEPC[k]? := by
      rw [List.getElem?_append_left (by omega)]
      rw [DELIM_cons, hk1, List.getElem?_cons_succ]
      rw [List.getElem?_append_left (by omega)]
    rw [← hz] at e1
    rw [e1] at e2
    have hmem : '\n' ∈ SEPC := by
      obtain ⟨hlt, hget⟩ := List.getElem?_eq_some.mp e2.symm
      exact hget ▸ List.getElem_mem hlt
    have : ('\n' ∈ SEPC) = False := by decide
    rw [this] at hmem
    exact hmem
  · by_cases h22 : t.length ≤ 21
    · -- t.length = 21, so t is the newline followed by the separator line
      have hl : t.length = 21 := by omega
      have e1 : (t ++ DELIM ++ r).take 21 = t := by
        rw [List.append_assoc, ← hl, List.take_left]
      have e2 : (DELIM ++ z).take 21 = '\n' :: SEPC := by
        rw [List.take_append_of_le_length (by simp [DELIM_cons]; decide)]
        decide
      rw [← hz, e2] at e1
      have : containsSub SEPC t = true := by
        rw [← e1]
        have : ('\n' :: SEPC) = ['\n'] ++ SEPC ++ [] := by simp
        rw [this]
        exact containsSub_parts _ _ _ (by decide)
      rw [this] at hfree
      exact Bool.true_eq_false.mp hfree
    · -- t.length ≥ 22, so the whole delimiter is a prefix of t
      have e1 : (t ++ DELIM ++ r).take 22 = t.take 22 := by
        rw [List.append_assoc, List.take_append_of_le_length (by omega)]
      have e2 : (DELIM ++ z).take 22 = DELIM := by
        have h22' : (22 : Nat) = DELIM.length := by decide
        rw [h22', List.take_left]
      rw [← hz, e2] at e1
      have hsplit : t = ['\n'] ++ SEPC ++ ('\n' :: t.drop 22) := by
        conv_lhs => rw [← List.take_append_drop 22 t]
        rw [← e1, DELIM_cons]
        simp
      have : containsSub SEPC t = true := by
        rw [hsplit]; exact containsSub_parts _ _ _ (by decide)
      rw [this] at hfree
      exact Bool.true_eq_false.mp hfree

lemma splitGo_nil (sep : List Char) (f : Nat) (cur : List Char) :
    splitGo sep f cur [] = [cur.reverse] := by
  cases f with
  | zero => simp [splitGo]
  | succ f => simp [splitGo]

lemma splitGo_succ (sep : List Char) (f : Nat) (cur : List Char) (c : Char)
    (cs : List Char) :
    splitGo sep (f + 1) cur (c :: cs) =
      if sep.isPrefixOf (c :: cs) then
        cur.reverse :: splitGo sep f [] (List.drop sep.length (c :: cs))
      else splitGo sep f (c :: cur) cs := rfl

lemma splitGo_fuel (sep : List Char) (hs : sep ≠ []) :
    ∀ (n : Nat) (rest : List Char), rest.length ≤ n →
    ∀ (cur : List Char) (f1 f2 : Nat), rest.length ≤ f1 → rest.length ≤ f2 →
    splitGo sep f1 cur rest = splitGo sep f2 cur rest := by
  intro n
  induction n with
  | zero =>
    intro rest h cur f1 f2 _ _
    have : rest = [] := List.length_eq_zero.mp (Nat.le_zero.mp h)
    subst this
    rw [splitGo_nil, splitGo_nil]
  | succ n ih =>
    intro rest hlen cur f1 f2 h1 h2
    cases rest with
    | nil => rw [splitGo_nil, splitGo_nil]
    | cons c cs =>
      have hcs : cs.length + 1 ≤ n + 1 := by simpa using hlen
      have hf1 : 1 ≤ f1 := le_trans (by simp) h1
      have hf2 : 1 ≤ f2 := le_trans (by simp) h2
      obtain ⟨a, rfl⟩ : ∃ a, f1 = a + 1 := ⟨f1 - 1, by omega⟩
      obtain ⟨b, rfl⟩ : ∃ b, f2 = b + 1 := ⟨f2 - 1, by omega⟩
      rw [splitGo_succ, splitGo_succ]
      have hsl : 1 ≤ sep.length := by
        cases sep with
        | nil => exact absurd rfl hs
        | cons _ _ => simp
      by_cases hp : sep.isPrefixOf (c :: cs) = true
      · simp only [hp, if_true]
        have hdl : (List.drop sep.length (c :: cs)).length ≤ n := by
          simp only [List.length_drop, List.length_cons]
          simp only [List.length_cons] at h1 h2 hlen
          omega
        have ha : (List.drop sep.length (c :: cs)).length ≤ a := by
          simp only [List.length_drop, List.length_cons]
          simp only [List.length_cons] at h1
          omega
        have hb : (List.drop sep.length (c :: cs)).length ≤ b := by
          simp only [List.length_drop, List.length_cons]
          simp only [List.length_cons] at h2
          omega
        rw [ih _ hdl [] a b ha hb]
      · simp only [hp, if_false, Bool.false_eq_true]
        have hcn : cs.length ≤ n := by
          simp only [List.length_cons] at hlen
          omega
        have ha : cs.length ≤ a := by
          simp only [List.length_cons] at h1
          omega
        have hb : cs.length ≤ b := by
          simp only [List.length_cons] at h2
          omega
        rw [ih _ hcn (c :: cur) a b ha hb]

lemma splitGo_boundary :
    ∀ (t : List Char), containsSub SEPC t = false →
    ∀ (r cur : List Char) (f : Nat), (t ++ DELIM ++ r).length ≤ f →
    splitGo DELIM f cur (t ++ DELIM ++ r) =
      (cur.reverse ++ t) :: splitGo DELIM (f - t.length - 1) [] r := by
  intro t
  induction t with
  | nil =>
    intro _ r cur f hf
    have h22 : DELIM.length = 22 := by decide
    have hlen : ((([] : List Char) ++ DELIM) ++ r).length = 22 + r.length := by
      simp [List.length_append, h22]
    have h1 : 1 ≤ f := by omega
    obtain ⟨a, rfl⟩ : ∃ a, f = a + 1 := ⟨f - 1, by omega⟩
    have hshape : (([] : List Char) ++ DELIM) ++ r = '\n' :: ((SEPC ++ ['\n']) ++ r) := by
      rw [List.nil_append, DELIM_cons, List.cons_append]
    rw [hshape, splitGo_succ, ← List.cons_append, ← DELIM_cons]
    have hpre : DELIM.isPrefixOf (DELIM ++ r) = true :=
      List.isPrefixOf_iff_prefix.mpr (List.prefix_append _ _)
    rw [hpre, if_pos rfl, List.drop_left]
    simp
  | cons c t' ih =>
    intro hfree r cur f hf
    have hne : (c :: t') ≠ [] := by simp
    have h1 : 1 ≤ f := by
      have : 1 ≤ (((c :: t') ++ DELIM) ++ r).length := by simp
      omega
    obtain ⟨a, rfl⟩ : ∃ a, f = a + 1 := ⟨f - 1, by omega⟩
    have hshape : ((c :: t') ++ DELIM) ++ r = c :: ((t' ++ DELIM) ++ r) := by simp
    rw [hshape, splitGo_succ]
    have hnp : DELIM.isPrefixOf (c :: ((t' ++ DELIM) ++ r)) = false := by
      rw [← hshape]
      exact delim_not_prefix _ _ hfree hne
    rw [hnp]
    simp only [Bool.false_eq_true, if_false]
    have hfree' : containsSub SEPC t' = false := by
      have : containsSub SEPC (c :: t') =
          (SEPC.isPrefixOf (c :: t') || containsSub SEPC t') := rfl
      rw [this] at hfree
      exact (Bool.or_eq_false_iff.mp hfree).2
    have hfa : ((t' ++ DELIM) ++ r).length ≤ a := by
      have e1 : (((c :: t') ++ DELIM) ++ r).length = ((t' ++ DELIM) ++ r).length + 1 := by
        simp
      omega
    rw [ih hfree' r (c :: cur) a hfa]
    have hrev : (c :: cur).reverse ++ t' = cur.reverse ++ (c :: t') := by simp
    have hfuel : a - t'.length - 1 = a + 1 - (c :: t').length - 1 := by
      simp only [List.length_cons]
      omega
    rw [hrev, hfuel]

lemma pySplitOn_encode :
    ∀ (ts : List (List Char)), (∀ t ∈ ts, containsSub SEPC t = false) →
    pySplitOn DELIM (encodeTexts ts) = ts ++ [[]] := by
  intro ts
  induction ts with
  | nil =>
    intro _
    have : encodeTexts [] = [] := by simp [encodeTexts]
    rw [this]
    have hD : DELIM.isEmpty = false := by decide
    simp [pySplitOn, hD, splitGo_nil]
  | cons t ts ih =>
    intro hfree
    have henc : encodeTexts (t :: ts) = (t ++ DELIM) ++ encodeTexts ts := by
      simp [encodeTexts]
    have hD : DELIM.isEmpty = false := by decide
    have h22 : DELIM.length = 22 := by decide
    rw [henc]
    show pySplitOn DELIM ((t ++ DELIM) ++ encodeTexts ts) = (t :: ts) ++ [[]]
    rw [pySplitOn, hD]
    simp only [Bool.false_eq_true, if_false]
    rw [splitGo_boundary t (hfree t (by simp)) (encodeTexts ts) [] _ (le_refl _)]
    have hfa : (encodeTexts ts).length ≤
        ((t ++ DELIM) ++ encodeTexts ts).length - t.length - 1 := by
      simp only [List.length_append, h22]
      omega
    rw [splitGo_fuel DELIM (by decide) (encodeTexts ts).length (encodeTexts ts)
      (le_refl _) [] _ (encodeTexts ts).length hfa (le_refl _)]
    have : splitGo DELIM (encodeTexts ts).length [] (encodeTexts ts) =
        pySplitOn DELIM (encodeTexts ts) := by
      rw [pySplitOn, hD]
      simp
    rw [this, ih (fun x hx => hfree x (by simp [hx]))]
    simp

lemma loadTexts_saveTexts (ts : List (List Char))
    (hfree : ∀ t ∈ ts, containsSub SEPC t = false) :
    loadTexts (saveTexts ts) = ts := by
  cases ts with
  | nil => simp [saveTexts, loadTexts]
  | cons t ts =>
    have hne : ((t :: ts) : List (List Char)).isEmpty = false := by simp
    rw [saveTexts, hne]
    simp only [Bool.false_eq_true, if_false, loadTexts]
    rw [pySplitOn_encode _ hfree]
    have hcond : ((t :: ts) ++ [[]] ≠ ([] : List (List Char))) ∧
        ((t :: ts) ++ [[]]).getLast? = some [] := by
      constructor
      · simp
      · exact List.getLast?_concat _
    rw [if_pos hcond, List.dropLast_concat]

/-! ### Helper lemmas: the greedy deduplication pass -/

/-- Every vector of `l` is at squared distance at least `t` from every
earlier vector of `l`. -/
def PairwiseFar (t : ℚ) (l : List (List ℚ)) : Prop :=
  l.Pairwise (fun u v => ¬ sqDist v u < t)

lemma isDup_eq_false_iff (t : ℚ) (kept : List (List ℚ)) (v : List ℚ) :
    isDup t kept v = false ↔ ∀ u ∈ kept, ¬ sqDist v u < t := by
  simp [isDup]

lemma dedupAux_pairwiseFar (t : ℚ) :
    ∀ (vs kept : List (List ℚ)) (ki : List Nat) (i : Nat),
    PairwiseFar t kept → PairwiseFar t (dedupAux t vs kept ki i).1 := by
  intro vs
  induction vs with
  | nil => intro kept ki i h; exact h
  | cons v vs ih =>
    intro kept ki i h
    by_cases hd : isDup t kept v = true
    · simp only [dedupAux, hd, if_true]
      exact ih _ _ _ h
    · have hd' : isDup t kept v = false := Bool.not_eq_true _ ▸ (by simpa using hd)
      simp only [dedupAux, hd', Bool.false_eq_true, if_false]
      apply ih
      rw [PairwiseFar, List.pairwise_append]
      refine ⟨h, by simp, ?_⟩
      intro a ha b hb
      have hb' : b = v := by simpa using hb
      rw [hb']
      exact (isDup_eq_false_iff t kept v).mp hd' a ha

lemma dedupAux_keeps (t : ℚ) :
    ∀ (l kept : List (List ℚ)) (ki : List Nat) (i : Nat),
    PairwiseFar t l → (∀ v ∈ l, isDup t kept v = false) →
    dedupAux t l kept ki i = (kept ++ l, ki ++ List.range' i l.length 1) := by
  intro l
  induction l with
  | nil => intro kept ki i _ _; simp [dedupAux]
  | cons v vs ih =>
    intro kept ki i hpw hnd
    have hd : isDup t kept v = false := hnd v (by simp)
    simp only [dedupAux, hd, Bool.false_eq_true, if_false]
    have hpw' : PairwiseFar t vs := (List.pairwise_cons.mp hpw).2
    have hfar : ∀ w ∈ vs, ¬ sqDist w v < t := (List.pairwise_cons.mp hpw).1
    have hnd' : ∀ w ∈ vs, isDup t (kept ++ [v]) w = false := by
      intro w hw
      rw [isDup_eq_false_iff]
      intro u hu
      rcases List.mem_append.mp hu with h1 | h2
      · exact (isDup_eq_false_iff t kept w).mp (hnd w (by simp [hw])) u h1
      · have : u = v := by simpa using h2
        subst this
        exact hfar w hw
    rw [ih (kept ++ [v]) (ki ++ [i]) (i + 1) hpw' hnd']
    rw [List.length_cons, List.range'_succ]
    simp

lemma dedupAux_lengths (t : ℚ) :
    ∀ (l kept : List (List ℚ)) (ki : List Nat) (i : Nat),
    kept.length = ki.length →
    (dedupAux t l kept ki i).1.length = (dedupAux t l kept ki i).2.length := by
  intro l
  induction l with
  | nil => intro kept ki i h; exact h
  | cons v vs ih =>
    intro kept ki i h
    by_cases hd : isDup t kept v = true
    · simp only [dedupAux, hd, if_true]
      exact ih _ _ _ h
    · have hd' : isDup t kept v = false := by simpa using hd
      simp only [dedupAux, hd', Bool.false_eq_true, if_false]
      exact ih _ _ _ (by simp [h])

lemma dedupAux_fst_ne_nil (t : ℚ) :
    ∀ (l kept : List (List ℚ)) (ki : List Nat) (i : Nat),
    kept ≠ [] ∨ l ≠ [] → (dedupAux t l kept ki i).1 ≠ [] := by
  intro l
  induction l with
  | nil =>
    intro kept ki i h
    simp only [dedupAux]
    rcases h with h | h
    · exact h
    · exact absurd rfl h
  | cons v vs ih =>
    intro kept ki i _
    by_cases hd : isDup t kept v = true
    · simp only [dedupAux, hd, if_true]
      apply ih
      left
      intro hk
      subst hk
      simp [isDup] at hd
    · have hd' : isDup t kept v = false := by simpa using hd
      simp only [dedupAux, hd', Bool.false_eq_true, if_false]
      apply ih
      left
      simp

lemma map_getD_range' {α : Type} (l : List α) (d : α) :
    (List.range' 0 l.length 1).map (fun i => l.getD i d) = l := by
  apply List.ext_getElem
  · simp
  · intro n h1 h2
    simp only [List.getElem_map, List.getElem_range']
    simp only [Nat.zero_add, Nat.one_mul]
    exact List.getD_eq_getElem l d h2

lemma sqDist_nonneg (v u : List ℚ) : 0 ≤ sqDist v u := by
  apply List.sum_nonneg
  intro x hx
  obtain ⟨p, _, rfl⟩ := List.mem_map.mp hx
  exact mul_self_nonneg _

lemma isDup_zero (kept : List (List ℚ)) (v : List ℚ) : isDup 0 kept v = false := by
  rw [isDup_eq_false_iff]
  intro u _
  exact not_lt.mpr (sqDist_nonneg v u)

lemma pairwiseFar_zero (l : List (List ℚ)) : PairwiseFar 0 l := by
  induction l with
  | nil => exact List.Pairwise.nil
  | cons v vs ih => exact List.Pairwise.cons (fun b _ => not_lt.mpr (sqDist_nonneg b v)) ih

/-! ### Helper lemmas: chunking -/

lemma strideCount_mul_ge (n st : Nat) (hst : 1 ≤ st) :
    n ≤ strideCount n st * st := by
  obtain ⟨q, r, hqr, hr, hsc⟩ :
      ∃ q r, st * q + r = n + st - 1 ∧ r < st ∧ strideCount n st = q :=
    ⟨(n + st - 1) / st, (n + st - 1) % st, Nat.div_add_mod _ _,
      Nat.mod_lt _ (by omega), rfl⟩
  rw [hsc]
  have hc := mul_comm st q
  omega

lemma start_lt_of_lt_strideCount (n st k : Nat) (hst : 1 ≤ st)
    (hk : k < strideCount n st) : st * k < n := by
  obtain ⟨q, hq, hsc⟩ : ∃ q, q * st ≤ n + st - 1 ∧ strideCount n st = q :=
    ⟨(n + st - 1) / st, Nat.div_mul_le_self _ _, rfl⟩
  rw [hsc] at hk
  have h2 : (k + 1) * st ≤ q * st := Nat.mul_le_mul_right st hk
  have h3 : (k + 1) * st = k * st + st := by ring
  have hc := mul_comm st k
  omega

lemma flatten_windows {α : Type} (w : List α) (st : Nat) :
    ∀ (cnt a : Nat),
    ((List.range' a cnt st).map (fun i => (w.drop i).take st)).flatten =
      (w.drop a).take (cnt * st) := by
  intro cnt
  induction cnt with
  | zero => intro a; simp
  | succ m ih =>
    intro a
    rw [List.range'_succ]
    simp only [List.map_cons, List.flatten_cons]
    rw [ih (a + st)]
    have h1 : (m + 1) * st = st + m * st := by ring
    rw [h1, List.take_add, List.drop_drop]

/-! ### Helper lemmas: the crawler -/

/-- Budget invariant of one crawl: the page count never exceeds the budget,
the processed-page trace has exactly that many entries, and every processed
page was dequeued at a depth within the depth budget. -/
def BudgetInv {α : Type} (maxDepth maxPages : Nat) (s : CrawlState α) : Prop :=
  s.processed ≤ maxPages ∧
  s.processedPages.length = s.processed ∧
  ∀ p ∈ s.processedPages, p.2 ≤ maxDepth

/-- Visited-set invariant of one crawl: no URL is in `visited` twice, every
enqueued link was unvisited at enqueue time, no URL is processed twice, and
processed URLs are visited. -/
def VisitInv {α : Type} (s : CrawlState α) : Prop :=
  s.visited.Nodup ∧
  (∀ e ∈ s.enqueueTrace, e.1 ∉ e.2) ∧
  (s.processedPages.map Prod.fst).Nodup ∧
  (∀ p ∈ s.processedPages, p.1 ∈ s.visited)

lemma extractLinks_not_visited {α : Type} [DecidableEq α] (raw : α → List α)
    (ok : α → α → Bool) (visited : List α) (url : α) (m : Nat) :
    ∀ l ∈ extractLinks raw ok visited url m, l ∉ visited := by
  intro l hl
  have h1 := List.mem_of_mem_take hl
  have h2 := (List.mem_filter.mp h1).2
  have h3 := ((Bool.and_eq_true _ _).mp h2).1
  exact of_decide_eq_true h3

lemma crawlStep_budget {α : Type} [DecidableEq α] (env : CrawlEnv α)
    (maxDepth maxPages : Nat) (s : CrawlState α)
    (hinv : BudgetInv maxDepth maxPages s) (hlt : s.processed < maxPages) :
    BudgetInv maxDepth maxPages (crawlStep env maxDepth s) := by
  obtain ⟨fr, vis, proc, deq, pages, enq⟩ := s
  obtain ⟨h1, h2, h3⟩ := hinv
  simp only [BudgetInv] at *
  cases fr with
  | nil => exact ⟨h1, h2, h3⟩
  | cons hd rest =>
    obtain ⟨url, depth⟩ := hd
    simp only [crawlStep]
    by_cases hdep : maxDepth < depth
    · simp only [if_pos hdep]
      exact ⟨h1, h2, h3⟩
    · simp only [if_neg hdep]
      by_cases htxt : (scrapeText env.fetch vis url).1 = []
      · simp only [if_pos htxt]
        exact ⟨h1, h2, h3⟩
      · simp only [if_neg htxt]
        have hpage : ∀ p ∈ pages ++ [(url, depth)], p.2 ≤ maxDepth := by
          intro p hp
          rcases List.mem_append.mp hp with h | h
          · exact h3 p h
          · have : p = (url, depth) := by simpa using h
            rw [this]
            omega
        by_cases hlink : depth < maxDepth
        · simp only [if_pos hlink]
          refine ⟨by omega, by simp [h2], hpage⟩
        · simp only [if_neg hlink]
          refine ⟨by omega, by simp [h2], hpage⟩

lemma crawlStep_visit {α : Type} [DecidableEq α] (env : CrawlEnv α)
    (maxDepth : Nat) (s : CrawlState α) (hinv : VisitInv s) :
    VisitInv (crawlStep env maxDepth s) := by
  obtain ⟨fr, vis, proc, deq, pages, enq⟩ := s
  obtain ⟨h1, h2, h3, h4⟩ := hinv
  simp only [VisitInv] at *
  cases fr with
  | nil => exact ⟨h1, h2, h3, h4⟩
  | cons hd rest =>
    obtain ⟨url, depth⟩ := hd
    simp only [crawlStep]
    by_cases hdep : maxDepth < depth
    · simp only [if_pos hdep]
      exact ⟨h1, h2, h3, h4⟩
    · simp only [if_neg hdep]
      by_cases hv : url ∈ vis
      · have hscr : scrapeText env.fetch vis url = ([], vis) := by
          simp [scrapeText, hv]
        simp only [hscr, if_pos rfl]
        exact ⟨h1, h2, h3, h4⟩
      · have hscr : scrapeText env.fetch vis url = (env.fetch url, url :: vis) := by
          simp [scrapeText, hv]
        by_cases htxt : env.fetch url = []
        · simp only [hscr, if_pos htxt]
          refine ⟨List.nodup_cons.mpr ⟨hv, h1⟩, h2, h3, ?_⟩
          intro p hp
          exact List.mem_cons_of_mem _ (h4 p hp)
        · simp only [hscr, if_neg htxt]
          have hnodupvis : (url :: vis).Nodup := List.nodup_cons.mpr ⟨hv, h1⟩
          have hnewpages : ((pages ++ [(url, depth)]).map Prod.fst).Nodup := by
            rw [List.map_append]
            simp only [List.map_cons, List.map_nil]
            rw [List.nodup_append]
            refine ⟨h3, by simp, ?_⟩
            intro a ha hb
            have hb' : a = url := by simpa using hb
            obtain ⟨p, hp, hpa⟩ := List.mem_map.mp ha
            apply hv
            have hmem : p.1 ∈ vis := h4 p hp
            rw [hpa, hb'] at hmem
            exact hmem
          have hpvis : ∀ p ∈ pages ++ [(url, depth)], p.1 ∈ url :: vis := by
            intro p hp
            rcases List.mem_append.mp hp with h | h
            · exact List.mem_cons_of_mem _ (h4 p h)
            · have : p = (url, depth) := by simpa using h
              rw [this]
              exact List.mem_cons_self _ _
          by_cases hlink : depth < maxDepth
          · simp only [if_pos hlink]
            refine ⟨hnodupvis, ?_, hnewpages, hpvis⟩
            intro e he
            rcases List.mem_append.mp he with h | h
            · exact h2 e h
            · obtain ⟨l, hl, hle⟩ := List.mem_map.mp h
              rw [← hle]
              exact extractLinks_not_visited env.rawLinks env.linkOk _ url 10 l hl
          · simp only [if_neg hlink]
            exact ⟨hnodupvis, h2, hnewpages, hpvis⟩

lemma crawlLoop_budget {α : Type} [DecidableEq α] (env : CrawlEnv α)
    (maxDepth maxPages : Nat) :
    ∀ (fuel : Nat) (s : CrawlState α), BudgetInv maxDepth maxPages s →
    BudgetInv maxDepth maxPages (crawlLoop env maxDepth maxPages fuel s) := by
  intro fuel
  induction fuel with
  | zero => intro s h; exact h
  | succ f ih =>
    intro s h
    rw [crawlLoop]
    by_cases hg : s.frontier = [] ∨ maxPages ≤ s.processed
    · rw [if_pos hg]
      exact h
    · rw [if_neg hg]
      apply ih
      apply crawlStep_budget env maxDepth maxPages s h
      push_neg at hg
      omega

lemma crawlLoop_visit {α : Type} [DecidableEq α] (env : CrawlEnv α)
    (maxDepth maxPages : Nat) :
    ∀ (fuel : Nat) (s : CrawlState α), VisitInv s →
    VisitInv (crawlLoop env maxDepth maxPages fuel s) := by
  intro fuel
  induction fuel with
  | zero => intro s h; exact h
  | succ f ih =>
    intro s h
    rw [crawlLoop]
    by_cases hg : s.frontier = [] ∨ maxPages ≤ s.processed
    · rw [if_pos hg]
      exact h
    · rw [if_neg hg]
      exact ih _ (crawlStep_visit env maxDepth s h)

lemma removeDuplicates_small (t : ℚ) (s : IndexState)
    (h : s.vectors.length < 2) : removeDuplicates t s = s := by
  unfold removeDuplicates
  rw [if_pos h]

lemma removeDuplicates_large (t : ℚ) (vecs : List (List ℚ))
    (ts : List (List Char)) (h : ¬vecs.length < 2) :
    removeDuplicates t ⟨vecs, ts⟩ =
      { vectors := (dedupAux t vecs [] [] 0).1
      , texts :=
          if ¬ts.isEmpty ∧ ts.length = vecs.length then
            (dedupAux t vecs [] [] 0).2.map (fun i => ts.getD i [])
          else ts } := by
  unfold removeDuplicates
  rw [if_neg h]

/-! ### Claim theorems -/

/-- C1 (confirmed).  For every index whose text payloads do not contain the
delimiter line `===TEXT_SEPARATOR===`, calling `save_index()` and then
re-opening from the same base path yields an index with the same vectors
(exact equality) and the same text payloads in the same order. -/
theorem c1_save_load_round_trip (s : IndexState)
    (hfree : ∀ t ∈ s.texts, containsSub SEPC t = false) :
    loadIndex (saveIndex s) = s := by
  obtain ⟨vecs, ts⟩ := s
  simp only [saveIndex, loadIndex]
  rw [loadTexts_saveTexts ts hfree]

def c1WitState : IndexState :=
  ⟨[[1, 2], [3, 4]], ["hello".toList, "world".toList]⟩

/-- Witness for C1 at a two-record index. -/
theorem c1_witness :
    (∀ t ∈ c1WitState.texts, containsSub SEPC t = false) ∧
    loadIndex (saveIndex c1WitState) = c1WitState :=
  ⟨by decide, c1_save_load_round_trip c1WitState (by decide)⟩

/-- C2 (confirmed).  Running `remove_duplicates` twice in a row with the same
threshold leaves the index unchanged on the second run: the second run
removes zero records and keeps every surviving vector and text payload in
the same order. -/
theorem c2_dedup_idempotent (t : ℚ) (s : IndexState) :
    removeDuplicates t (removeDuplicates t s) = removeDuplicates t s := by
  obtain ⟨vecs, ts⟩ := s
  by_cases h : vecs.length < 2
  · rw [removeDuplicates_small t ⟨vecs, ts⟩ h, removeDuplicates_small t ⟨vecs, ts⟩ h]
  · rw [removeDuplicates_large t vecs ts h]
    by_cases h2 : (dedupAux t vecs [] [] 0).1.length < 2
    · exact removeDuplicates_small t _ h2
    · rw [removeDuplicates_large t _ _ h2]
      have hpw : PairwiseFar t (dedupAux t vecs [] [] 0).1 :=
        dedupAux_pairwiseFar t vecs [] [] 0 List.Pairwise.nil
      have hkeeps : dedupAux t (dedupAux t vecs [] [] 0).1 [] [] 0 =
          ([] ++ (dedupAux t vecs [] [] 0).1,
            [] ++ List.range' 0 (dedupAux t vecs [] [] 0).1.length 1) :=
        dedupAux_keeps t _ [] [] 0 hpw (fun v _ => by simp [isDup])
      rw [hkeeps]
      simp only [List.nil_append]
      congr 1
      by_cases hc :
          ¬(if ¬ts.isEmpty ∧ ts.length = vecs.length then
              (dedupAux t vecs [] [] 0).2.map (fun i => ts.getD i [])
            else ts).isEmpty ∧
          (if ¬ts.isEmpty ∧ ts.length = vecs.length then
              (dedupAux t vecs [] [] 0).2.map (fun i => ts.getD i [])
            else ts).length = (dedupAux t vecs [] [] 0).1.length
      · rw [if_pos hc, ← hc.2]
        exact map_getD_range' _ []
      · rw [if_neg hc]

/-- C7 counterexample.  With `distance_threshold = 0` and two identical
one-dimensional vectors, the second record is at squared L2 distance exactly
zero from the earlier kept record, yet `remove_duplicates` keeps both (the
comparison `dist < 0` is strict, so nothing is ever removed); the claim
demands that the duplicate be removed, leaving a single vector. -/
theorem c7_counterexample :
    sqDist [(0 : ℚ)] [(0 : ℚ)] = 0 ∧
    removeDuplicates 0 ⟨[[(0 : ℚ)], [(0 : ℚ)]], []⟩ =
      ⟨[[(0 : ℚ)], [(0 : ℚ)]], []⟩ ∧
    ([[(0 : ℚ)], [(0 : ℚ)]] : List (List ℚ)) ≠ [[(0 : ℚ)]] := by
  refine ⟨by norm_num [sqDist], ?_, by simp⟩
  have hd0 : isDup 0 [] [(0 : ℚ)] = false := isDup_zero _ _
  have hd1 : isDup 0 [[(0 : ℚ)]] [(0 : ℚ)] = false := isDup_zero _ _
  rw [removeDuplicates_large 0 [[(0 : ℚ)], [(0 : ℚ)]] [] (by simp)]
  simp only [dedupAux, hd0, hd1, Bool.false_eq_true, if_false]
  simp [hd0, hd1]

/-- C7 (corrected).  With `distance_threshold = 0`, `remove_duplicates`
removes nothing at all — not even exact duplicates — because the
duplicate test is the strict comparison `dist < 0` and squared distances
are never negative; every index is returned unchanged. -/
theorem c7_threshold_zero_removes_nothing (s : IndexState) :
    removeDuplicates 0 s = s := by
  obtain ⟨vecs, ts⟩ := s
  by_cases h : vecs.length < 2
  · exact removeDuplicates_small 0 ⟨vecs, ts⟩ h
  · rw [removeDuplicates_large 0 vecs ts h]
    have hkeeps : dedupAux 0 vecs [] [] 0 =
        ([] ++ vecs, [] ++ List.range' 0 vecs.length 1) :=
      dedupAux_keeps 0 vecs [] [] 0 (pairwiseFar_zero vecs)
        (fun v _ => isDup_zero [] v)
    rw [hkeeps]
    simp only [List.nil_append]
    congr 1
    by_cases hc : ¬ts.isEmpty ∧ ts.length = vecs.length
    · rw [if_pos hc, ← hc.2]
      exact map_getD_range' ts []
    · rw [if_neg hc]

/-- C6 counterexample.  `add_embeddings` called with two vectors but only one
text returns `True` (its success value — nothing is signaled) and appends
both lists in full, leaving two vectors paired with one text; the claim says
the mismatch is signaled to the caller. -/
theorem c6_counterexample :
    addEmbeddings ⟨[], []⟩ [[(0 : ℚ)], [(1 : ℚ)]] (some [['a']]) =
      (⟨[[(0 : ℚ)], [(1 : ℚ)]], [['a']]⟩, true) ∧
    (addEmbeddings ⟨[], []⟩ [[(0 : ℚ)], [(1 : ℚ)]]
      (some [['a']])).1.vectors.length = 2 ∧
    (addEmbeddings ⟨[], []⟩ [[(0 : ℚ)], [(1 : ℚ)]]
      (some [['a']])).1.texts.length = 1 := by
  refine ⟨?_, by simp [addEmbeddings], by simp [addEmbeddings]⟩
  simp [addEmbeddings]

/-- C6 (corrected).  A call to `add_embeddings` with a non-empty texts list
whose length differs from the vector count is not signaled: the function
returns `True` (success) and appends every vector and every text without
truncation or padding, leaving the two counts unequal; the length check the
claim describes does not exist in the code. -/
theorem c6_mismatch_not_signaled (s : IndexState) (embs : List (List ℚ))
    (ts : List (List Char)) (hne : ts ≠ []) :
    (addEmbeddings s embs (some ts)).2 = true ∧
    (addEmbeddings s embs (some ts)).1.vectors = s.vectors ++ embs ∧
    (addEmbeddings s embs (some ts)).1.texts = s.texts ++ ts := by
  refine ⟨rfl, rfl, ?_⟩
  have hemp : ts.isEmpty = false := by
    cases ts with
    | nil => exact absurd rfl hne
    | cons a l => simp
  simp [addEmbeddings, hemp]

/-- Witness for C6's amended statement: one old record, two new vectors and
one new text. -/
theorem c6_witness :
    (([['b']] : List (List Char)) ≠ []) ∧
    (addEmbeddings ⟨[[(1 : ℚ)]], [['a']]⟩ [[(2 : ℚ)], [(3 : ℚ)]]
      (some [['b']])).1.texts = [['a']] ++ [['b']] :=
  ⟨by decide,
    (c6_mismatch_not_signaled ⟨[[(1 : ℚ)]], [['a']]⟩ [[(2 : ℚ)], [(3 : ℚ)]]
      [['b']] (by decide)).2.2⟩

/-- C4 counterexample.  On an index tracking one text for its one vector,
`add_embeddings` called without texts (`texts=None`, allowed by the API)
appends the vector but not a text: afterwards texts are still tracked
(non-empty) but `count == len(vectors)` is 2 while `len(texts)` is 1, so the
invariant is not preserved by this index operation. -/
theorem c4_counterexample :
    (addEmbeddings ⟨[[(1 : ℚ)]], [['a']]⟩ [[(2 : ℚ)]] none).1 =
      ⟨[[(1 : ℚ)], [(2 : ℚ)]], [['a']]⟩ ∧
    (addEmbeddings ⟨[[(1 : ℚ)]], [['a']]⟩ [[(2 : ℚ)]] none).1.texts ≠ [] ∧
    (addEmbeddings ⟨[[(1 : ℚ)]], [['a']]⟩ [[(2 : ℚ)]] none).1.vectors.length ≠
      (addEmbeddings ⟨[[(1 : ℚ)]], [['a']]⟩ [[(2 : ℚ)]] none).1.texts.length := by
  refine ⟨by simp [addEmbeddings], by simp [addEmbeddings], by simp [addEmbeddings]⟩

/-- C4 (corrected).  On an index with tracked texts satisfying
`count == len(vectors) == len(texts)`, the invariant is preserved by
`add_embeddings` when it is given a texts list matching the vector count, by
`remove_duplicates` for every threshold, and by save-then-load when the
payloads do not contain the delimiter line; it is NOT preserved by an
`add_embeddings` call that supplies vectors without texts (see the
counterexample), so the claim's "every index operation" must be restricted
to calls that supply matching texts. -/
theorem c4_invariant_preservation (s : IndexState) (h1 : s.texts ≠ [])
    (h2 : s.vectors.length = s.texts.length) :
    (∀ (embs : List (List ℚ)) (ts : List (List Char)), ts.length = embs.length →
      (addEmbeddings s embs (some ts)).1.vectors.length =
        (addEmbeddings s embs (some ts)).1.texts.length ∧
      (addEmbeddings s embs (some ts)).1.texts ≠ []) ∧
    (∀ t : ℚ,
      (removeDuplicates t s).vectors.length = (removeDuplicates t s).texts.length ∧
      (removeDuplicates t s).texts ≠ []) ∧
    ((∀ tx ∈ s.texts, containsSub SEPC tx = false) →
      loadIndex (saveIndex s) = s) := by
  obtain ⟨vecs, ts0⟩ := s
  refine ⟨?_, ?_, ?_⟩
  · intro embs ts hlen
    by_cases hemp : ts.isEmpty
    · have hts : ts = [] := by
        cases ts with
        | nil => rfl
        | cons a l => simp at hemp
      subst hts
      have hembs : embs = [] := by
        cases embs with
        | nil => rfl
        | cons a l => simp at hlen
      subst hembs
      constructor
      · simp [addEmbeddings, h2]
      · simp [addEmbeddings]
        exact h1
    · have hemp' : ts.isEmpty = false := by simpa using hemp
      constructor
      · simp [addEmbeddings, hemp', h2]
        omega
      · simp [addEmbeddings, hemp', h1]
  · intro t
    by_cases h : vecs.length < 2
    · rw [removeDuplicates_small t ⟨vecs, ts0⟩ h]
      exact ⟨h2, h1⟩
    · rw [removeDuplicates_large t vecs ts0 h]
      have hc : (¬ts0.isEmpty ∧ ts0.length = vecs.length) := by
        constructor
        · simpa using h1
        · exact h2.symm
      rw [if_pos hc]
      have hlen12 : (dedupAux t vecs [] [] 0).1.length =
          (dedupAux t vecs [] [] 0).2.length := dedupAux_lengths t vecs [] [] 0 rfl
      constructor
      · simp [hlen12]
      · have hfst : (dedupAux t vecs [] [] 0).1 ≠ [] := by
          apply dedupAux_fst_ne_nil
          right
          intro hv
          rw [hv] at h
          simp at h
        intro hmap
        apply hfst
        have hm2 := congrArg List.length hmap
        simp at hm2
        rw [← List.length_eq_zero, hlen12, hm2]
        rfl
  · intro hfree
    simp only [saveIndex, loadIndex]
    rw [loadTexts_saveTexts ts0 hfree]

def c4WitState : IndexState := ⟨[[(1 : ℚ)]], [['a']]⟩

/-- Witness for C4's amended statement. -/
theorem c4_witness :
    (c4WitState.texts ≠ [] ∧
      c4WitState.vectors.length = c4WitState.texts.length ∧
      ([['b']] : List (List Char)).length = ([[(2 : ℚ)]] : List (List ℚ)).length) ∧
    (addEmbeddings c4WitState [[(2 : ℚ)]] (some [['b']])).1.vectors.length =
      (addEmbeddings c4WitState [[(2 : ℚ)]] (some [['b']])).1.texts.length ∧
    (removeDuplicates 0 c4WitState).vectors.length =
      (removeDuplicates 0 c4WitState).texts.length :=
  ⟨⟨by decide, by decide, by decide⟩,
    ((c4_invariant_preservation c4WitState (by decide) (by decide)).1
      [[(2 : ℚ)]] [['b']] (by decide)).1,
    ((c4_invariant_preservation c4WitState (by decide) (by decide)).2.1 0).1⟩

def c8Text : List Char := "a b c d e f g h i j".toList

/-- C8 counterexample.  On a ten-word text with `chunk_size = 8` and
`overlap = 4`, `_chunk_text` emits three windows of 8, 6 and 2 words: the
middle window is not the final one yet holds 6 < 8 words, so the claim's
description "successive windows of chunk_size words ... the final shorter
window" fails — windows before the final one can also be shorter. -/
theorem c8_counterexample :
    chunkText c8Text 8 4 = (chunkSpans (pyWords c8Text) 8 4).map joinWords ∧
    (chunkSpans (pyWords c8Text) 8 4).length = 3 ∧
    ((chunkSpans (pyWords c8Text) 8 4).getD 1 []).length = 6 ∧
    (6 : Nat) ≠ 8 := by
  refine ⟨?_, by decide, by decide, by decide⟩
  decide

/-- C8 (corrected).  For `overlap < chunk_size`: a text of at most
`chunk_size` words yields the single chunk `[text]`; otherwise the chunks
are the joins of the word windows `words[i:i+chunk_size]` at stride
`chunk_size - overlap`, every window (the final one included) is non-empty
and emitted, and the first window followed by each later window with its
first `overlap` words dropped reconstructs the original word sequence.
Windows before the final one may also hold fewer than `chunk_size` words
(see the counterexample), which is the one point where the claim as written
fails. -/
theorem c8_chunk_structure (text : List Char) (cs ov : Nat) (hov : ov < cs) :
    ((pyWords text).length ≤ cs → chunkText text cs ov = [text]) ∧
    (cs < (pyWords text).length →
      chunkText text cs ov =
        (chunkSpans (pyWords text) cs (cs - ov)).map joinWords ∧
      (∀ sp ∈ chunkSpans (pyWords text) cs (cs - ov), sp ≠ []) ∧
      (chunkSpans (pyWords text) cs (cs - ov)).headD [] ++
        (((chunkSpans (pyWords text) cs (cs - ov)).drop 1).map
          (List.drop ov)).flatten = pyWords text) := by
  have hcs1 : 1 ≤ cs := by omega
  have hst : 1 ≤ cs - ov := by omega
  constructor
  · intro h
    simp only [chunkText]
    rw [if_pos h]
  · intro h
    refine ⟨?_, ?_, ?_⟩
    · simp only [chunkText]
      rw [if_neg (not_le.mpr h)]
    · intro sp hsp
      rw [chunkSpans] at hsp
      obtain ⟨i, hi, hspan⟩ := List.mem_map.mp hsp
      rw [chunkStarts] at hi
      obtain ⟨k, hk, hik⟩ := List.mem_range'.mp hi
      have hlt : (cs - ov) * k < (pyWords text).length :=
        start_lt_of_lt_strideCount _ _ k hst hk
      have hi_lt : i < (pyWords text).length := by omega
      intro hemp
      have hnil : spanAt (pyWords text) cs i = [] := hspan.trans hemp
      have hlen0 := congrArg List.length hnil
      simp only [spanAt, List.length_take, List.length_drop,
        List.length_nil] at hlen0
      omega
    · obtain ⟨m, hm⟩ :
          ∃ m, strideCount (pyWords text).length (cs - ov) = m + 1 := by
        have hge := strideCount_mul_ge (pyWords text).length (cs - ov) hst
        rcases Nat.eq_zero_or_pos (strideCount (pyWords text).length (cs - ov))
          with h0 | h0
        · rw [h0, Nat.zero_mul] at hge
          omega
        · exact ⟨strideCount (pyWords text).length (cs - ov) - 1, by omega⟩
      rw [chunkSpans, chunkStarts, hm, List.range'_succ]
      simp only [List.map_cons, List.headD_cons, List.drop_succ_cons,
        List.drop_zero]
      rw [List.map_map]
      have hfg : (List.drop ov ∘ spanAt (pyWords text) cs) =
          ((fun j => ((pyWords text).drop j).take (cs - ov)) ∘ (fun i => ov + i)) := by
        funext i
        simp only [Function.comp, spanAt]
        rw [List.drop_take, List.drop_drop]
        have : i + ov = ov + i := by omega
        rw [this]
      rw [hfg, ← List.map_map, List.map_add_range']
      have harg : ov + (0 + (cs - ov)) = cs := by omega
      rw [harg, flatten_windows]
      have htake : ((pyWords text).drop cs).take (m * (cs - ov)) =
          (pyWords text).drop cs := by
        apply List.take_of_length_le
        rw [List.length_drop]
        have hge := strideCount_mul_ge (pyWords text).length (cs - ov) hst
        rw [hm] at hge
        have hexp : (m + 1) * (cs - ov) = m * (cs - ov) + (cs - ov) := by ring
        omega
      rw [htake]
      simp only [spanAt, List.drop_zero]
      exact List.take_append_drop cs (pyWords text)

def c8WitText : List Char := "a b c".toList

/-- Witness for C8's amended statement on a three-word text with
`chunk_size = 2`, `overlap = 1`. -/
theorem c8_witness :
    ((1 : Nat) < 2 ∧ 2 < (pyWords c8WitText).length) ∧
    (chunkSpans (pyWords c8WitText) 2 1).headD [] ++
      (((chunkSpans (pyWords c8WitText) 2 1).drop 1).map
        (List.drop 1)).flatten = pyWords c8WitText :=
  ⟨⟨by decide, by decide⟩,
    ((c8_chunk_structure c8WitText 2 1 (by decide)).2 (by decide)).2.2⟩

/-- C3 (confirmed).  For every seed topic, every fetch/link behaviour of the
providers and every budget, `extract_knowledge_from_topic` counts at most
`max_pages` processed pages (the returned count equals the number of
processed-page events), and every processed page comes from a frontier entry
whose depth is at most `max_depth`. -/
theorem c3_crawler_budget (env : CrawlEnv (List Char))
    (maxDepth maxPages fuel : Nat) (topic : List Char) :
    (extractKnowledgeFromTopic env maxDepth maxPages fuel topic).processed ≤
      maxPages ∧
    (extractKnowledgeFromTopic env maxDepth maxPages fuel topic).processedPages.length =
      (extractKnowledgeFromTopic env maxDepth maxPages fuel topic).processed ∧
    ∀ p ∈ (extractKnowledgeFromTopic env maxDepth maxPages fuel topic).processedPages,
      p.2 ≤ maxDepth := by
  have hinit : BudgetInv maxDepth maxPages
      (initCrawl (seedUrl topic) : CrawlState (List Char)) := by
    refine ⟨Nat.zero_le _, rfl, ?_⟩
    intro p hp
    simp [initCrawl] at hp
  exact crawlLoop_budget env maxDepth maxPages fuel _ hinit

def c3Topic : List Char := "quantum computing".toList

def c3WitEnv : CrawlEnv (List Char) :=
  { fetch := fun _ => ['x'], rawLinks := fun _ => [], linkOk := fun _ _ => true }

/-- Witness for C3: a non-URL topic, one page budget, depth budget zero. -/
theorem c3_witness :
    ((googleSearchUrl c3Topic, 0) ∈
      (extractKnowledgeFromTopic c3WitEnv 0 1 3 c3Topic).processedPages) ∧
    (extractKnowledgeFromTopic c3WitEnv 0 1 3 c3Topic).processed ≤ 1 ∧
    (googleSearchUrl c3Topic, (0 : Nat)).2 ≤ 0 :=
  ⟨by decide, (c3_crawler_budget c3WitEnv 0 1 3 c3Topic).1,
    (c3_crawler_budget c3WitEnv 0 1 3 c3Topic).2.2 _ (by decide)⟩

def c5UrlA : List Char := "http://a".toList

def c5UrlB : List Char := "http://b".toList

def c5UrlC : List Char := "http://c".toList

def c5Env : CrawlEnv (List Char) :=
  { fetch := fun _ => ['x']
  , rawLinks := fun u =>
      if u = c5UrlA then [c5UrlB, c5UrlC]
      else if u = c5UrlB then [c5UrlC] else []
  , linkOk := fun _ _ => true }

/-- C5 counterexample.  Page A links to B and C, and page B links to C
again before C has been visited, so C is enqueued twice and dequeued twice:
the dequeued-URL sequence is `[A, B, C, C]`, refuting "no URL appears twice
among the frontier entries dequeued over the whole crawl" (the second
dequeue of C is then skipped because C is already visited). -/
theorem c5_counterexample :
    (extractKnowledgeFromTopic c5Env 2 10 6 c5UrlA).dequeued.map Prod.fst =
      [c5UrlA, c5UrlB, c5UrlC, c5UrlC] ∧
    ¬ ((extractKnowledgeFromTopic c5Env 2 10 6 c5UrlA).dequeued.map
        Prod.fst).Nodup := by
  refine ⟨by decide, by decide⟩

/-- C5 (corrected).  Every URL enters the visited set at most once (the set
stays duplicate-free), every enqueued link was unvisited at the moment it
was enqueued (a URL is never re-enqueued after being visited), and no URL is
processed twice; however a URL can be enqueued more than once before its
first visit, so the same URL may be dequeued more than once (see the
counterexample) — the later dequeues scrape nothing and are not counted. -/
theorem c5_visited_once (env : CrawlEnv (List Char))
    (maxDepth maxPages fuel : Nat) (topic : List Char) :
    (extractKnowledgeFromTopic env maxDepth maxPages fuel topic).visited.Nodup ∧
    (∀ e ∈ (extractKnowledgeFromTopic env maxDepth maxPages fuel topic).enqueueTrace,
      e.1 ∉ e.2) ∧
    ((extractKnowledgeFromTopic env maxDepth maxPages fuel topic).processedPages.map
      Prod.fst).Nodup := by
  have hinit : VisitInv (initCrawl (seedUrl topic) : CrawlState (List Char)) := by
    refine ⟨List.nodup_nil, ?_, by simp [initCrawl], ?_⟩
    · intro e he
      simp [initCrawl] at he
    · intro p hp
      simp [initCrawl] at hp
  have h := crawlLoop_visit env maxDepth maxPages fuel _ hinit
  exact ⟨h.1, h.2.1, h.2.2.1⟩

/-- Witness for C5's amended statement: the first enqueue event of the
counterexample crawl recorded B while only A was visited. -/
theorem c5_witness :
    ((c5UrlB, [c5UrlA]) ∈
      (extractKnowledgeFromTopic c5Env 2 10 6 c5UrlA).enqueueTrace) ∧
    c5UrlB ∉ [c5UrlA] :=
  ⟨by decide,
    (c5_visited_once c5Env 2 10 6 c5UrlA).2.1 (c5UrlB, [c5UrlA]) (by decide)⟩

def c9Env : CrawlEnv (List Char) :=
  { fetch := fun u => if u = googleSearchUrl [] then ['x'] else []
  , rawLinks := fun _ => [], linkOk := fun _ _ => true }

/-- C9 counterexample.  With an empty topic string,
`extract_knowledge_from_topic` does not refuse: it builds the search URL
`https://www.google.com/search?q=` and crawls from it, and with a provider
that returns text for that URL it reports 1 processed page, not 0. -/
theorem c9_counterexample :
    (extractKnowledgeFromTopic c9Env 0 1 2 []).processed = 1 ∧ (1 : Nat) ≠ 0 := by
  refine ⟨by decide, by decide⟩

/-- C9 (corrected).  `extract_knowledge_from_topic` performs no empty-topic
check: an empty topic is converted to the bare search-engine URL and crawled
like any other topic (so pages can be fetched and a nonzero count reported).
The refusal the claim describes lives one layer up, in
`Brain.visit_and_update_memory`, which returns `False` and starts no crawl
when the topic is empty or whitespace-only. -/
theorem c9_empty_topic_not_refused (env : CrawlEnv (List Char))
    (maxDepth maxPages fuel : Nat) :
    seedUrl [] = googleSearchUrl [] ∧
    extractKnowledgeFromTopic env maxDepth maxPages fuel [] =
      crawlLoop env maxDepth maxPages fuel (initCrawl (googleSearchUrl [])) ∧
    visitAndUpdateMemory env maxDepth maxPages fuel [] = (false, none) := by
  have hs : seedUrl [] = googleSearchUrl [] := by decide
  refine ⟨hs, ?_, ?_⟩
  · rw [extractKnowledgeFromTopic, hs]
  · simp [visitAndUpdateMemory]

/-- C10 (confirmed).  `scrape_text` marks a URL visited before fetching: on
a first call the URL is added to the visited set whatever the fetch returns
(including a failed or empty fetch), any call on a visited URL returns the
empty string and changes nothing, and the visited set only ever grows — so
once a URL has been scraped (even unsuccessfully) every later call for it on
the same instance returns the empty string and the URL is never retried. -/
theorem c10_failed_fetch_never_retried {α : Type} [DecidableEq α]
    (fetch : α → List Char) (visited : List α) (u : α) :
    (u ∉ visited → scrapeText fetch visited u = (fetch u, u :: visited)) ∧
    (u ∈ (scrapeText fetch visited u).2) ∧
    (∀ visited2 : List α, u ∈ visited2 → scrapeText fetch visited2 u = ([], visited2)) ∧
    (∀ (fetch2 : α → List Char) (u2 x : α), x ∈ visited →
      x ∈ (scrapeText fetch2 visited u2).2) := by
  refine ⟨?_, ?_, ?_, ?_⟩
  · intro hnv
    simp [scrapeText, hnv]
  · by_cases hv : u ∈ visited
    · simp [scrapeText, hv]
    · simp [scrapeText, hv]
  · intro v2 hv2
    simp [scrapeText, hv2]
  · intro f2 u2 x hx
    by_cases hv : u2 ∈ visited
    · simp [scrapeText, hv, hx]
    · simp only [scrapeText, if_neg hv]
      exact List.mem_cons_of_mem _ hx

/-- Witness for C10: a failed first fetch still marks URL 0 visited, and a
second call returns the empty string. -/
theorem c10_witness :
    ((0 : Nat) ∉ ([] : List Nat) ∧
      scrapeText (fun _ => ([] : List Char)) ([] : List Nat) 0 = ([], [0])) ∧
    ((0 : Nat) ∈ [0] ∧
      scrapeText (fun _ => ['y']) [(0 : Nat)] 0 = ([], [0])) :=
  ⟨⟨by decide,
      (c10_failed_fetch_never_retried (fun _ => []) [] 0).1 (by decide)⟩,
    ⟨by decide,
      (c10_failed_fetch_never_retried (fun _ => ['y']) [0] 0).2.2.1 [0] (by decide)⟩⟩
